import Mathlib

/-
Shallow embedding of the mj-autograd reverse-mode automatic differentiation
library (src/autograd.rs, src/optimizer.rs), instantiated at the exact
rational numbers for the generic numeric type T.

The Rust Tape is an Rc<RefCell<Vec<Op<T>>>>: several Tape handles may alias
one underlying vector.  We model the heap of tape vectors as a Store
(a list of op-lists) and a Tape handle as an index into that store; every
operation threads the Store explicitly.  Rust vector indexing panics when
out of bounds; fallible computations therefore return Option, with none
standing for a panic.
-/

/-- One recorded operation on the tape (struct Op in autograd.rs). -/
structure Op where
  left : Nat
  right : Nat
  dleft : ℚ
  dright : ℚ
deriving DecidableEq

instance : Inhabited Op := ⟨⟨0, 0, 0, 0⟩⟩

/-- Op::unary: right parent aliases left, dright is zero. -/
def Op.unary (left : Nat) (dleft : ℚ) : Op :=
  ⟨left, left, dleft, 0⟩

/-- Op::bin: a full binary node. -/
def Op.bin (left : Nat) (dleft : ℚ) (right : Nat) (dright : ℚ) : Op :=
  ⟨left, right, dleft, dright⟩

/-- The heap of tape vectors: one entry per live tape allocation. -/
abbrev Store := List (List Op)

/-- A Tape handle: an index into the Store (models the shared Rc handle). -/
structure Tape where
  id : Nat
deriving DecidableEq

/-- Tape::reset: clears the underlying op vector. -/
def Tape.reset (t : Tape) (s : Store) : Store :=
  s.set t.id []

/-- Tape::add_reset: appends a self-referential leaf node seeded with v1,
returning the new node's position. -/
def Tape.add_reset (t : Tape) (v1 : ℚ) (s : Store) : Store × Nat :=
  let ops := s.getD t.id []
  let newIdx := ops.length
  (s.set t.id (ops ++ [⟨newIdx, newIdx, v1, v1⟩]), newIdx)

/-- Tape::add_op: appends a general node, returning its position. -/
def Tape.add_op (t : Tape) (op : Op) (s : Store) : Store × Nat :=
  let ops := s.getD t.id []
  (s.set t.id (ops ++ [op]), ops.length)

/-- struct Reverse: a primal value, an optional tape handle, and a position. -/
structure Reverse where
  value : ℚ
  tape : Option Tape
  index : Nat
deriving DecidableEq

instance : Inhabited Reverse := ⟨⟨0, none, 0⟩⟩

/-- Reverse::reversible: registers a fresh leaf (seeded with zero) on the tape. -/
def Reverse.reversible (v : ℚ) (t : Tape) (s : Store) : Store × Reverse :=
  let r := Tape.add_reset t 0 s
  (r.1, ⟨v, some t, r.2⟩)

/-- Reverse::auto: an untracked constant; no tape, index 0. -/
def Reverse.auto (v : ℚ) : Reverse :=
  ⟨v, none, 0⟩

/-- Reverse::reset: a no-op for constants; re-registers a fresh leaf for a
tracked value, updating its stored position. -/
def Reverse.reset (r : Reverse) (s : Store) : Store × Reverse :=
  match r.tape with
  | none => (s, r)
  | some t =>
    let a := Tape.add_reset t 0 s
    (a.1, { r with index := a.2 })

/-- Reverse::unary_op: evaluates on the primal; records a unary node when
the operand is tracked. -/
def Reverse.unary_op (r : Reverse) (ev dv : ℚ → ℚ) (s : Store) : Store × Reverse :=
  let value := ev r.value
  match r.tape with
  | none => (s, ⟨value, none, 0⟩)
  | some t =>
    let a := Tape.add_op t (Op.unary r.index (dv r.value)) s
    (a.1, ⟨value, some t, a.2⟩)

/-- Reverse::bin_op: four-way dispatch on trackedness of the operands.  When
both are tracked the node is recorded on the LEFT operand's tape, with no
check that the right operand lives on the same tape. -/
def Reverse.bin_op (a b : Reverse) (ev dl dr : ℚ → ℚ → ℚ) (s : Store) : Store × Reverse :=
  let value := ev a.value b.value
  match a.tape, b.tape with
  | none, none => (s, ⟨value, none, 0⟩)
  | some tl, none =>
    let r := Tape.add_op tl (Op.unary a.index (dl a.value b.value)) s
    (r.1, ⟨value, some tl, r.2⟩)
  | none, some tr =>
    let r := Tape.add_op tr (Op.unary b.index (dr a.value b.value)) s
    (r.1, ⟨value, some tr, r.2⟩)
  | some tl, some _tr =>
    let r := Tape.add_op tl
      (Op.bin a.index (dl a.value b.value) b.index (dr a.value b.value)) s
    (r.1, ⟨value, some tl, r.2⟩)

/-- impl Add for Reverse. -/
def Reverse.add (a b : Reverse) (s : Store) : Store × Reverse :=
  a.bin_op b (fun x y => x + y) (fun _ _ => 1) (fun _ _ => 1) s

/-- impl Sub for Reverse. -/
def Reverse.sub (a b : Reverse) (s : Store) : Store × Reverse :=
  a.bin_op b (fun x y => x - y) (fun _ _ => 1) (fun _ _ => -1) s

/-- impl Mul for Reverse. -/
def Reverse.mul (a b : Reverse) (s : Store) : Store × Reverse :=
  a.bin_op b (fun x y => x * y) (fun _ y => y) (fun x _ => x) s

/-- impl Div for Reverse. -/
def Reverse.div (a b : Reverse) (s : Store) : Store × Reverse :=
  a.bin_op b (fun x y => x / y) (fun _ y => 1 / y) (fun x y => -x / (y * y)) s

/-- impl Neg for Reverse. -/
def Reverse.neg (a : Reverse) (s : Store) : Store × Reverse :=
  a.unary_op (fun x => -x) (fun _ => -1) s

/-- struct Derivatives: the result of one backward sweep. -/
structure Derivatives where
  derivatives : List ℚ
deriving DecidableEq

/-- Derivatives::empty. -/
def Derivatives.empty : Derivatives := ⟨[]⟩

/-- impl Index for Derivatives (all three reference flavours share this
body): panicking vector lookup at the value's position, with none for the
panic. -/
def Derivatives.lookup (d : Derivatives) (r : Reverse) : Option ℚ :=
  d.derivatives[r.index]?

/-- One iteration of the backward loop body at position idx: adds
grad(idx) * dleft into slot left, then grad(idx) * dright into slot right,
sequentially, panicking (none) if a parent position is out of range. -/
def backStep (ops : List Op) (ds : List ℚ) (idx : Nat) : Option (List ℚ) :=
  let op := ops.getD idx default
  if op.left < ds.length then
    let ds1 := ds.set op.left (ds.getD op.left 0 + ds.getD idx 0 * op.dleft)
    if op.right < ds1.length then
      some (ds1.set op.right (ds1.getD op.right 0 + ds1.getD idx 0 * op.dright))
    else none
  else none

/-- Reverse::derivatives: the backward sweep.  Untracked values return the
empty vector; otherwise a zero vector of the tape's length is seeded with
one at the output's position and the recorded positions are scanned from
the highest down to zero. -/
def Reverse.derivatives (r : Reverse) (s : Store) : Option Derivatives :=
  match r.tape with
  | none => some Derivatives.empty
  | some t =>
    let ops := s.getD t.id []
    if r.index < ops.length then
      ((List.range ops.length).reverse.foldlM (backStep ops)
        ((List.replicate ops.length (0 : ℚ)).set r.index 1)).map Derivatives.mk
    else none

/-- struct SimpleGradientDescent (optimizer.rs). -/
structure SimpleGradientDescent where
  learning_rate : ℚ

/-- SimpleGradientDescent::step: for each parameter p in order, replace it
with p - auto(derivatives[p] * learning_rate); the lookup derivatives[p]
panics (none) when p's position is outside the derivative vector. -/
def SimpleGradientDescent.step (o : SimpleGradientDescent) (d : Derivatives) :
    List Reverse → Store → Option (Store × List Reverse)
  | [], s => some (s, [])
  | p :: ps, s =>
    match d.lookup p with
    | none => none
    | some g =>
      let r := Reverse.sub p (Reverse.auto (g * o.learning_rate)) s
      match SimpleGradientDescent.step o d ps r.1 with
      | none => none
      | some q => some (q.1, r.2 :: q.2)

/-- struct AdamW (optimizer.rs).  The step counter t has type T in the
source; every reachable value of it is a positive integer. -/
structure AdamW where
  learning_rate : ℚ
  beta1 : ℚ
  beta2 : ℚ
  epsilon : ℚ
  t : ℚ
  weight_decay : ℚ
  first_momentum : List ℚ
  second_momentum : List ℚ

/-- AdamW::default: the hyperparameters are exact here where the source
casts the float literals 0.9, 0.999, 1e-8, 0.01 into T. -/
def AdamW.default (lr : ℚ) : AdamW :=
  ⟨lr, 9 / 10, 999 / 1000, 1 / 100000000, 1, 1 / 100, [], []⟩

/-- The weight-decay loop of AdamW::step: records each parameter's
pre-decay position into param_indices and replaces the parameter with
p - auto(learning_rate * weight_decay) * p.  Runs only when the decay is
nonzero. -/
def adamwDecay (c : ℚ) : List Reverse → Store → Store × List Reverse × List Nat
  | [], s => (s, [], [])
  | p :: ps, s =>
    let r1 := Reverse.mul (Reverse.auto c) p s
    let r2 := Reverse.sub p r1.2 r1.1
    let rest := adamwDecay c ps r2.1
    (rest.1, r2.2 :: rest.2.1, p.index :: rest.2.2)

/-- The first-momentum loop of AdamW::step: m1[i] becomes
beta1 * m1[i] + (1 - beta1) * g[i] for every i below the derivative
vector's length; indexing past the momentum array's end panics (none). -/
def firstMomentumUpdate (beta1 : ℚ) (m ds : List ℚ) : Option (List ℚ) :=
  if ds.length ≤ m.length then
    some ((List.range m.length).map fun i =>
      if i < ds.length then beta1 * m.getD i 0 + (1 - beta1) * ds.getD i 0
      else m.getD i 0)
  else none

/-- The second-momentum loop of AdamW::step: m2[i] becomes
beta2 * m2[i] + (1 - beta2) * g[i] * g[i], with the same panic behaviour. -/
def secondMomentumUpdate (beta2 : ℚ) (m ds : List ℚ) : Option (List ℚ) :=
  if ds.length ≤ m.length then
    some ((List.range m.length).map fun i =>
      if i < ds.length then
        beta2 * m.getD i 0 + (1 - beta2) * ds.getD i 0 * ds.getD i 0
      else m.getD i 0)
  else none

/-- The final parameter loop of AdamW::step: for the idx-th parameter it
looks up param_indices[idx] and the bias-corrected moments at that
position, each lookup panicking (none) when out of range, and replaces the
parameter with p - auto(lr * m1hat[pos] / (sqrt(m2hat[pos]) + epsilon)). -/
def adamwApply (lr eps : ℚ) (sqrtFn : ℚ → ℚ) (m1hat m2hat : List ℚ) :
    List Reverse → List Nat → Store → Option (Store × List Reverse)
  | [], _, s => some (s, [])
  | p :: ps, pidxs, s =>
    match pidxs with
    | [] => none
    | pos :: rest =>
      match m1hat[pos]?, m2hat[pos]? with
      | some h1, some h2 =>
        let r := Reverse.sub p (Reverse.auto (lr * h1 / (sqrtFn h2 + eps))) s
        match adamwApply lr eps sqrtFn m1hat m2hat ps rest r.1 with
        | none => none
        | some q => some (q.1, r.2 :: q.2)
      | _, _ => none

/-- AdamW::step.  The generic type T of the source has a Real bound that
supplies sqrt; the embedding takes that capability as the function
sqrtFn.  T's to_i32 on the (always integral, always positive) counter t is
taken as the floor.  Faithfully reproduced: param_indices is filled only
inside the weight-decay branch, and the momentum arrays are allocated only
when empty. -/
def AdamW.step (sqrtFn : ℚ → ℚ) (o : AdamW) (d : Derivatives)
    (params : List Reverse) (s : Store) : Option (AdamW × Store × List Reverse) :=
  let ds := d.derivatives
  let nderivatives := ds.length
  let dec :=
    if o.weight_decay = 0 then (s, params, ([] : List Nat))
    else adamwDecay (o.learning_rate * o.weight_decay) params s
  let m1 := if o.first_momentum.isEmpty then List.replicate nderivatives (0 : ℚ)
            else o.first_momentum
  let m2 := if o.second_momentum.isEmpty then List.replicate nderivatives (0 : ℚ)
            else o.second_momentum
  match firstMomentumUpdate o.beta1 m1 ds, secondMomentumUpdate o.beta2 m2 ds with
  | some m1u, some m2u =>
    let tExp : ℤ := ⌊o.t⌋
    let m1hat := (List.range nderivatives).map fun i =>
      m1u.getD i 0 / (1 - o.beta1 ^ tExp)
    let m2hat := (List.range nderivatives).map fun i =>
      m2u.getD i 0 / (1 - o.beta2 ^ tExp)
    match adamwApply o.learning_rate o.epsilon sqrtFn m1hat m2hat dec.2.1 dec.2.2 dec.1 with
    | none => none
    | some q =>
      some ({ o with first_momentum := m1u, second_momentum := m2u, t := o.t + 1 },
            q.1, q.2)
  | _, _ => none

/-- C1: for f(x) = x * x with x the single tracked leaf (primal 3) on one
tape, with both multiplication operands aliasing that same leaf, the
backward sweep yields derivative 6 at x's position. -/
theorem c1_square_derivative_at_three :
    (let s0 : Store := [[]]
     let p1 := Reverse.reversible 3 ⟨0⟩ s0
     let p2 := Reverse.mul p1.2 p1.2 p1.1
     (Reverse.derivatives p2.2 p2.1).map (fun d => d.lookup p1.2)) =
      some (some 6) := by
  norm_num [Reverse.reversible, Reverse.mul, Reverse.bin_op, Reverse.derivatives, Derivatives.lookup, Tape.add_reset, Tape.add_op, backStep, List.range_succ, List.foldlM, Op.bin, Op.unary]

/-- C3 (code bug witness): with weight decay zero and one parameter passed,
AdamW::step panics (none) instead of performing the step-5 update, because
param_indices is only filled inside the weight-decay branch and is then
indexed in the final loop. -/
theorem c3_adamw_zero_weight_decay_panics :
    AdamW.step id { AdamW.default 1 with weight_decay := 0 } ⟨[1]⟩
      [Reverse.auto 5] [[]] = none := by
  norm_num [AdamW.step, AdamW.default, firstMomentumUpdate, secondMomentumUpdate,
    adamwApply, adamwDecay, List.range_succ]

/-- C4 (counterexample): an AdamW step with a one-entry derivative vector
allocates one-slot momentum arrays; a following step whose derivative
vector has two entries does not resize them and panics (none) in the
momentum-update loop, instead of resizing to the grown tape. -/
theorem c4_grown_tape_second_step_panics :
    ((AdamW.step id (AdamW.default 1) ⟨[1]⟩ [] [[]]).bind
      (fun r => AdamW.step id r.1 ⟨[1, 1]⟩ [] [[]])) = none := by
  norm_num [AdamW.step, AdamW.default, firstMomentumUpdate, secondMomentumUpdate,
    adamwApply, adamwDecay, List.range_succ]

/-- C2 (counterexample): after a SimpleGradientDescent step on a tracked
parameter (primal 3, position 0, learning rate 1, derivative vector with
entry 2), the updated parameter still carries its tape reference and the
tape has grown from one node to two, contradicting the untracked, no-new-
node description. -/
theorem c2_sgd_result_still_tracked :
    (SimpleGradientDescent.step ⟨1⟩ ⟨[2]⟩ [⟨3, some ⟨0⟩, 0⟩]
        [[⟨0, 0, 0, 0⟩]]).map
      (fun r => ((r.2.getD 0 default).tape, (r.1.getD 0 []).length)) =
      some (some ⟨0⟩, 2) := by
  norm_num [SimpleGradientDescent.step, Derivatives.lookup, Reverse.sub,
    Reverse.auto, Reverse.bin_op, Tape.add_op, Op.unary]

/-- The primal of a bin_op result is the evaluation on the two primals, in
all four trackedness cases. -/
theorem Reverse.bin_op_value (a b : Reverse) (ev dl dr : ℚ → ℚ → ℚ) (s : Store) :
    (Reverse.bin_op a b ev dl dr s).2.value = ev a.value b.value := by
  rcases a with ⟨av, ta, ia⟩
  rcases b with ⟨bv, tb, ib⟩
  cases ta <;> cases tb <;> simp [Reverse.bin_op, Tape.add_op]

/-- The primal of a subtraction is the difference of the primals. -/
theorem Reverse.sub_value (a b : Reverse) (s : Store) :
    (Reverse.sub a b s).2.value = a.value - b.value :=
  Reverse.bin_op_value a b _ _ _ s

/-- C5: after SimpleGradientDescent::step succeeds, every parameter's new
primal is its old primal minus learning_rate times the derivative-vector
entry at the parameter's recorded position. -/
theorem c5_sgd_new_primal (o : SimpleGradientDescent) (d : Derivatives)
    (ps : List Reverse) (s s2 : Store) (ps2 : List Reverse)
    (h : SimpleGradientDescent.step o d ps s = some (s2, ps2)) :
    ps2.length = ps.length ∧
    ∀ i, i < ps.length →
      (ps2.getD i default).value =
        (ps.getD i default).value -
          o.learning_rate * d.derivatives.getD (ps.getD i default).index 0 := by
  induction ps generalizing s s2 ps2 with
  | nil =>
    simp only [SimpleGradientDescent.step, Option.some.injEq, Prod.mk.injEq] at h
    obtain ⟨rfl, rfl⟩ := h
    simp
  | cons p ps ih =>
    simp only [SimpleGradientDescent.step] at h
    cases hg : Derivatives.lookup d p with
    | none => rw [hg] at h; exact Option.noConfusion h
    | some g =>
      simp only [hg] at h
      cases hrec : SimpleGradientDescent.step o d ps
          (Reverse.sub p (Reverse.auto (g * o.learning_rate)) s).1 with
      | none =>
        simp only [hrec] at h
        exact Option.noConfusion h
      | some q =>
        obtain ⟨qs, qps⟩ := q
        simp only [hrec, Option.some.injEq, Prod.mk.injEq] at h
        obtain ⟨rfl, rfl⟩ := h
        obtain ⟨hlen, hvals⟩ := ih _ _ _ hrec
        refine ⟨by simp [hlen], ?_⟩
        intro i hi
        cases i with
        | zero =>
          simp only [List.getD_cons_zero, Reverse.sub_value]
          have hgd : d.derivatives.getD p.index 0 = g := by
            simp only [Derivatives.lookup] at hg
            rw [List.getD_eq_getElem?_getD, hg, Option.getD_some]
          rw [hgd]
          show p.value - g * o.learning_rate = p.value - o.learning_rate * g
          ring
        | succ j =>
          have hj : j < ps.length := by simpa using hi
          simp only [List.getD_cons_succ]
          exact hvals j hj

/-- C5 witness: the step theorem applied to one tracked parameter with
primal 3 at position 0, learning rate 1 and derivative entry 2; the
updated primal is 3 - 1 * 2 = 1. -/
theorem c5_sgd_new_primal_witness :
    SimpleGradientDescent.step ⟨1⟩ ⟨[2]⟩ [⟨3, some ⟨0⟩, 0⟩] [[⟨0, 0, 0, 0⟩]] =
      some ([[⟨0, 0, 0, 0⟩, ⟨0, 0, 1, 0⟩]], [⟨1, some ⟨0⟩, 1⟩]) ∧
    (([⟨1, some ⟨0⟩, 1⟩] : List Reverse).length =
        ([⟨3, some ⟨0⟩, 0⟩] : List Reverse).length ∧
      ∀ i, i < ([⟨3, some ⟨0⟩, 0⟩] : List Reverse).length →
        (([⟨1, some ⟨0⟩, 1⟩] : List Reverse).getD i default).value =
          (([⟨3, some ⟨0⟩, 0⟩] : List Reverse).getD i default).value -
            (⟨1⟩ : SimpleGradientDescent).learning_rate *
              (⟨[2]⟩ : Derivatives).derivatives.getD
                (([⟨3, some ⟨0⟩, 0⟩] : List Reverse).getD i default).index 0) :=
  ⟨by norm_num [SimpleGradientDescent.step, Derivatives.lookup, Reverse.sub,
      Reverse.auto, Reverse.bin_op, Tape.add_op, Op.unary],
   c5_sgd_new_primal ⟨1⟩ ⟨[2]⟩ [⟨3, some ⟨0⟩, 0⟩] [[⟨0, 0, 0, 0⟩]]
     [[⟨0, 0, 0, 0⟩, ⟨0, 0, 1, 0⟩]] [⟨1, some ⟨0⟩, 1⟩]
     (by norm_num [SimpleGradientDescent.step, Derivatives.lookup, Reverse.sub,
       Reverse.auto, Reverse.bin_op, Tape.add_op, Op.unary])⟩

/-- C2 (amended): after an optimizer step on a tracked parameter the
parameter is NOT replaced by an untracked constant: for both optimizers
the updated value still carries the tape reference, and the step records
new nodes on the tape (one unary node for gradient descent; for AdamW with
nonzero weight decay, three nodes: the decay product, the decay
subtraction, and the step-5 subtraction). -/
theorem c2_amended_updates_stay_tracked
    (lr v g : ℚ) (i : Nat) (ops : List Op) (d : Derivatives)
    (o : AdamW) (sq : ℚ → ℚ)
    (hg : d.derivatives[i]? = some g)
    (hwd : o.weight_decay ≠ 0)
    (hm1 : o.first_momentum = [])
    (hm2 : o.second_momentum = []) :
    SimpleGradientDescent.step ⟨lr⟩ d [⟨v, some ⟨0⟩, i⟩] [ops] =
      some ([ops ++ [Op.unary i 1]], [⟨v - g * lr, some ⟨0⟩, ops.length⟩]) ∧
    (AdamW.step sq o d [⟨v, some ⟨0⟩, i⟩] [ops]).map
        (fun r => ((r.2.2.getD 0 default).tape, (r.2.2.getD 0 default).index, r.2.1)) =
      some (some ⟨0⟩, ops.length + 2,
        [ops ++ [Op.unary i (o.learning_rate * o.weight_decay),
                 Op.bin i 1 ops.length (-1),
                 Op.unary (ops.length + 1) 1]]) := by
  have hi : i < d.derivatives.length := by
    by_contra hcon
    rw [List.getElem?_eq_none (by omega)] at hg
    exact Option.noConfusion hg
  constructor
  · simp [SimpleGradientDescent.step, Derivatives.lookup, hg, Reverse.sub,
      Reverse.auto, Reverse.bin_op, Tape.add_op, Op.unary]
  · simp only [AdamW.step, hm1, hm2, List.isEmpty_nil, if_neg hwd, if_true,
      adamwDecay, Reverse.mul, Reverse.sub, Reverse.auto, Reverse.bin_op,
      Tape.add_op, Op.unary, Op.bin]
    simp [firstMomentumUpdate, secondMomentumUpdate, adamwApply,
      List.getElem?_map, List.getElem?_range, hi, Reverse.sub, Reverse.auto,
      Reverse.bin_op, Tape.add_op, Op.unary, Op.bin, List.getD_cons_zero]

/-- C2 amended witness: the amended statement applied with learning rate 1,
primal 3 at position 0, derivative entry 2, on a one-leaf tape, with the
default AdamW hyperparameters (weight decay 1/100, empty momenta). -/
theorem c2_amended_updates_stay_tracked_witness :
    ((⟨[2]⟩ : Derivatives).derivatives[(0 : Nat)]? = some 2 ∧
      (AdamW.default 1).weight_decay ≠ 0 ∧
      (AdamW.default 1).first_momentum = [] ∧
      (AdamW.default 1).second_momentum = []) ∧
    (SimpleGradientDescent.step ⟨1⟩ ⟨[2]⟩ [⟨3, some ⟨0⟩, 0⟩] [[⟨0, 0, 0, 0⟩]] =
      some ([[⟨0, 0, 0, 0⟩] ++ [Op.unary 0 1]],
        [⟨3 - 2 * 1, some ⟨0⟩, ([⟨0, 0, 0, 0⟩] : List Op).length⟩]) ∧
    (AdamW.step id (AdamW.default 1) ⟨[2]⟩ [⟨3, some ⟨0⟩, 0⟩] [[⟨0, 0, 0, 0⟩]]).map
        (fun r => ((r.2.2.getD 0 default).tape, (r.2.2.getD 0 default).index, r.2.1)) =
      some (some ⟨0⟩, ([⟨0, 0, 0, 0⟩] : List Op).length + 2,
        [[⟨0, 0, 0, 0⟩] ++
          [Op.unary 0 ((AdamW.default 1).learning_rate * (AdamW.default 1).weight_decay),
           Op.bin 0 1 ([⟨0, 0, 0, 0⟩] : List Op).length (-1),
           Op.unary (([⟨0, 0, 0, 0⟩] : List Op).length + 1) 1]])) :=
  ⟨⟨by norm_num, by norm_num [AdamW.default], by norm_num [AdamW.default],
    by norm_num [AdamW.default]⟩,
   c2_amended_updates_stay_tracked 1 3 2 0 [⟨0, 0, 0, 0⟩] ⟨[2]⟩ (AdamW.default 1) id
     (by norm_num) (by norm_num [AdamW.default]) (by norm_num [AdamW.default])
     (by norm_num [AdamW.default])⟩

/-- A successful first-momentum loop leaves the array's length unchanged
and requires the derivative vector to be no longer than the array. -/
theorem firstMomentumUpdate_some_length (beta : ℚ) (m ds mu : List ℚ)
    (h : firstMomentumUpdate beta m ds = some mu) :
    mu.length = m.length ∧ ds.length ≤ m.length := by
  unfold firstMomentumUpdate at h
  split at h
  · next hle =>
    simp only [Option.some.injEq] at h
    subst h
    simp [hle]
  · exact Option.noConfusion h

/-- A successful second-momentum loop leaves the array's length unchanged
and requires the derivative vector to be no longer than the array. -/
theorem secondMomentumUpdate_some_length (beta : ℚ) (m ds mu : List ℚ)
    (h : secondMomentumUpdate beta m ds = some mu) :
    mu.length = m.length ∧ ds.length ≤ m.length := by
  unfold secondMomentumUpdate at h
  split at h
  · next hle =>
    simp only [Option.some.injEq] at h
    subst h
    simp [hle]
  · exact Option.noConfusion h

/-- C4 (amended): AdamW's moment arrays are allocated to the derivative
vector's length only when they are empty (first use) and are never resized
afterwards; any step that returns normally therefore has moment arrays at
least as long as the derivative vector, and a step whose derivative vector
outgrew non-empty arrays panics instead of resizing. -/
theorem c4_amended_moment_allocation (sq : ℚ → ℚ) (o : AdamW) (d : Derivatives)
    (ps : List Reverse) (s : Store) (o2 : AdamW) (s2 : Store) (ps2 : List Reverse)
    (h : AdamW.step sq o d ps s = some (o2, s2, ps2)) :
    o2.first_momentum.length =
      (if o.first_momentum.isEmpty then d.derivatives.length
       else o.first_momentum.length) ∧
    o2.second_momentum.length =
      (if o.second_momentum.isEmpty then d.derivatives.length
       else o.second_momentum.length) ∧
    d.derivatives.length ≤ o2.first_momentum.length ∧
    d.derivatives.length ≤ o2.second_momentum.length := by
  simp only [AdamW.step] at h
  split at h
  · next m1u m2u heqf heqs =>
    split at h
    · exact Option.noConfusion h
    · next q happ =>
      simp only [Option.some.injEq, Prod.mk.injEq] at h
      obtain ⟨rfl, rfl, rfl⟩ := h
      obtain ⟨hl1, hle1⟩ := firstMomentumUpdate_some_length _ _ _ _ heqf
      obtain ⟨hl2, hle2⟩ := secondMomentumUpdate_some_length _ _ _ _ heqs
      refine ⟨?_, ?_, ?_, ?_⟩
      · rw [hl1]; split_ifs <;> simp
      · rw [hl2]; split_ifs <;> simp
      · rw [hl1]; exact hle1
      · rw [hl2]; exact hle2
  · exact Option.noConfusion h

/-- C4 amended witness: the allocation theorem applied to a first AdamW
step (empty momenta, one derivative entry, no parameters), whose result
allocates one-slot momentum arrays. -/
theorem c4_amended_moment_allocation_witness :
    AdamW.step id (AdamW.default 1) ⟨[1]⟩ [] [[]] =
      some (⟨1, 9 / 10, 999 / 1000, 1 / 100000000, 2, 1 / 100,
              [1 / 10], [1 / 1000]⟩, [[]], []) ∧
    ((⟨1, 9 / 10, 999 / 1000, 1 / 100000000, 2, 1 / 100, [1 / 10], [1 / 1000]⟩ :
        AdamW).first_momentum.length =
      (if (AdamW.default 1).first_momentum.isEmpty then
        (⟨[1]⟩ : Derivatives).derivatives.length
       else (AdamW.default 1).first_momentum.length) ∧
    (⟨1, 9 / 10, 999 / 1000, 1 / 100000000, 2, 1 / 100, [1 / 10], [1 / 1000]⟩ :
        AdamW).second_momentum.length =
      (if (AdamW.default 1).second_momentum.isEmpty then
        (⟨[1]⟩ : Derivatives).derivatives.length
       else (AdamW.default 1).second_momentum.length) ∧
    (⟨[1]⟩ : Derivatives).derivatives.length ≤
      (⟨1, 9 / 10, 999 / 1000, 1 / 100000000, 2, 1 / 100, [1 / 10], [1 / 1000]⟩ :
        AdamW).first_momentum.length ∧
    (⟨[1]⟩ : Derivatives).derivatives.length ≤
      (⟨1, 9 / 10, 999 / 1000, 1 / 100000000, 2, 1 / 100, [1 / 10], [1 / 1000]⟩ :
        AdamW).second_momentum.length) :=
  ⟨by norm_num [AdamW.step, AdamW.default, firstMomentumUpdate,
      secondMomentumUpdate, adamwApply, adamwDecay, List.range_succ],
   c4_amended_moment_allocation id (AdamW.default 1) ⟨[1]⟩ [] [[]]
     ⟨1, 9 / 10, 999 / 1000, 1 / 100000000, 2, 1 / 100, [1 / 10], [1 / 1000]⟩
     [[]] []
     (by norm_num [AdamW.step, AdamW.default, firstMomentumUpdate,
       secondMomentumUpdate, adamwApply, adamwDecay, List.range_succ])⟩

/-- C8: when both operands are tracked, bin_op unconditionally appends the
new node to the LEFT operand's tape, with parents (left's position,
right's position), never comparing the two tape handles — the statement
places no constraint relating ta and tb, so it covers operands registered
on two distinct tapes. -/
theorem c8_bin_op_uses_left_tape (a b : Reverse) (ta tb : Tape)
    (ev dl dr : ℚ → ℚ → ℚ) (s : Store)
    (ha : a.tape = some ta) (hb : b.tape = some tb) :
    Reverse.bin_op a b ev dl dr s =
      (s.set ta.id ((s.getD ta.id []) ++
          [Op.bin a.index (dl a.value b.value) b.index (dr a.value b.value)]),
       ⟨ev a.value b.value, some ta, (s.getD ta.id []).length⟩) := by
  rcases a with ⟨av, taa, ia⟩
  rcases b with ⟨bv, tbb, ib⟩
  simp only at ha hb
  subst ha hb
  simp [Reverse.bin_op, Tape.add_op]

/-- C8 witness: the theorem applied to operands on two DISTINCT tapes (ids
0 and 1) under multiplication: the node lands on tape 0 with parents taken
from both operands, and tape 1 is untouched. -/
theorem c8_bin_op_uses_left_tape_witness :
    ((⟨2, some ⟨0⟩, 0⟩ : Reverse).tape = some ⟨0⟩ ∧
      (⟨5, some ⟨1⟩, 0⟩ : Reverse).tape = some ⟨1⟩) ∧
    Reverse.bin_op ⟨2, some ⟨0⟩, 0⟩ ⟨5, some ⟨1⟩, 0⟩
        (fun x y => x * y) (fun _ y => y) (fun x _ => x) [[], []] =
      (([[], []] : Store).set 0 ((([[], []] : Store).getD 0 []) ++
          [Op.bin 0 ((fun (_ : ℚ) (y : ℚ) => y) 2 5) 0 ((fun (x : ℚ) (_ : ℚ) => x) 2 5)]),
       ⟨(fun (x : ℚ) (y : ℚ) => x * y) 2 5, some ⟨0⟩, (([[], []] : Store).getD 0 []).length⟩) :=
  ⟨⟨rfl, rfl⟩,
   c8_bin_op_uses_left_tape ⟨2, some ⟨0⟩, 0⟩ ⟨5, some ⟨1⟩, 0⟩ ⟨0⟩ ⟨1⟩
     (fun x y => x * y) (fun _ y => y) (fun x _ => x) [[], []] rfl rfl⟩

/-- impl PartialEq for Reverse: equality compares only the primal values. -/
def Reverse.eqv (a b : Reverse) : Bool := a.value == b.value

/-- The PartialOrd instance of the (totally ordered) scalar type:
partial_cmp always returns Some of the comparison of the two numbers. -/
def ratPartialCmp (x y : ℚ) : Option Ordering := some (compare x y)

/-- impl PartialOrd for Reverse: delegates to the primal values'
partial_cmp, ignoring tape and position. -/
def Reverse.partialCmp (a b : Reverse) : Option Ordering :=
  ratPartialCmp a.value b.value

/-- C9: two Reverse values compare equal exactly when their primals are
equal, and their ordering is the ordering of the primals, for every
combination of tape references and positions; in particular any value
compares equal to the untracked constant with the same primal. -/
theorem c9_eq_ord_compare_primals_only (v1 v2 : ℚ) (t1 t2 : Option Tape)
    (i1 i2 : Nat) :
    (Reverse.eqv ⟨v1, t1, i1⟩ ⟨v2, t2, i2⟩ = true ↔ v1 = v2) ∧
    Reverse.partialCmp ⟨v1, t1, i1⟩ ⟨v2, t2, i2⟩ = some (compare v1 v2) ∧
    Reverse.eqv ⟨v1, t1, i1⟩ (Reverse.auto v1) = true := by
  refine ⟨?_, rfl, ?_⟩
  · simp [Reverse.eqv]
  · simp [Reverse.eqv, Reverse.auto]

/-- C10: every way the code builds an untracked value gives it position 0
(Reverse::auto, and the untracked branches of unary_op and bin_op);
indexing a Derivative Vector by an untracked value is the lookup at
position 0, which panics (none) exactly when the vector is empty. -/
theorem c10_untracked_indexes_at_zero (d : Derivatives) (v w : ℚ) (j k : Nat)
    (ev dv : ℚ → ℚ) (ev2 dl2 dr2 : ℚ → ℚ → ℚ) (s : Store) :
    (Reverse.auto v).index = 0 ∧
    ((Reverse.unary_op ⟨w, none, j⟩ ev dv s).2).index = 0 ∧
    ((Reverse.bin_op ⟨v, none, j⟩ ⟨w, none, k⟩ ev2 dl2 dr2 s).2).index = 0 ∧
    Derivatives.lookup d (Reverse.auto v) = d.derivatives[0]? ∧
    (Derivatives.lookup d (Reverse.auto v) = none ↔ d.derivatives = []) := by
  refine ⟨rfl, rfl, rfl, rfl, ?_⟩
  simp [Derivatives.lookup, Reverse.auto, List.getElem?_eq_none_iff]

/-- A driver-program instruction: the ways client code can add to a tape
since its last reset — register a leaf, or apply a unary or binary
operation to previously obtained values (referenced by register number,
allowing arbitrary sharing). -/
inductive Instr where
  | leaf (v : ℚ)
  | un (i : Nat) (ev dv : ℚ → ℚ)
  | binop (i j : Nat) (ev dl dr : ℚ → ℚ → ℚ)

/-- Executes one instruction against the single tape with id 0, appending
the produced value to the register file. -/
def runInstr (st : Store × List Reverse) : Instr → Store × List Reverse
  | .leaf v =>
    let r := Reverse.reversible v ⟨0⟩ st.1
    (r.1, st.2 ++ [r.2])
  | .un i ev dv =>
    let r := Reverse.unary_op (st.2[i]?.getD (Reverse.auto 0)) ev dv st.1
    (r.1, st.2 ++ [r.2])
  | .binop i j ev dl dr =>
    let r := Reverse.bin_op (st.2[i]?.getD (Reverse.auto 0))
      (st.2[j]?.getD (Reverse.auto 0)) ev dl dr st.1
    (r.1, st.2 ++ [r.2])

/-- Runs a driver program from a fresh single-tape store and no registers. -/
def runProg (prog : List Instr) : Store × List Reverse :=
  prog.foldl runInstr ([[]], [])

/-- The tape invariant of the spec: each node's parent positions are at
most its own position, and a parent position equal to the node's own
position happens only for self-referential (leaf) nodes, whose local
derivatives carry the zero seed. -/
def TapeWellFormed (ops : List Op) : Prop :=
  ∀ (i : Nat) (op2 : Op), ops[i]? = some op2 →
    op2.left ≤ i ∧ op2.right ≤ i ∧
    (op2.left = i ∨ op2.right = i →
      op2.left = i ∧ op2.right = i ∧ op2.dleft = 0 ∧ op2.dright = 0)

/-- Appending a node whose parents already exist (or the self-referential
leaf) preserves the tape invariant. -/
theorem tapeWellFormed_append (ops : List Op) (op : Op)
    (hwf : TapeWellFormed ops)
    (hl : op.left ≤ ops.length) (hr : op.right ≤ ops.length)
    (heq : op.left = ops.length ∨ op.right = ops.length →
      op.left = ops.length ∧ op.right = ops.length ∧ op.dleft = 0 ∧ op.dright = 0) :
    TapeWellFormed (ops ++ [op]) := by
  intro i op2 h
  rcases Nat.lt_trichotomy i ops.length with hi | hi | hi
  · rw [List.getElem?_append_left hi] at h
    exact hwf i op2 h
  · subst hi
    rw [List.getElem?_concat_length] at h
    simp only [Option.some.injEq] at h
    subst h
    exact ⟨hl, hr, heq⟩
  · rw [List.getElem?_eq_none (by simp; omega)] at h
    exact Option.noConfusion h

/-- The driver-state invariant: a single tape that is well formed, with
every tracked register pointing into it at a live position. -/
def StateWF (st : Store × List Reverse) : Prop :=
  ∃ ops, st.1 = [ops] ∧ TapeWellFormed ops ∧
    ∀ r ∈ st.2, ∀ t, r.tape = some t → t = (⟨0⟩ : Tape) ∧ r.index < ops.length

/-- A register-file lookup that yields a tracked value obeys the register
invariant (the out-of-range default is untracked). -/
theorem reg_lookup_tracked (ops : List Op) (regs : List Reverse)
    (hregs : ∀ r ∈ regs, ∀ t, r.tape = some t → t = (⟨0⟩ : Tape) ∧ r.index < ops.length)
    (i : Nat) (t : Tape)
    (ht : (regs[i]?.getD (Reverse.auto 0)).tape = some t) :
    t = (⟨0⟩ : Tape) ∧ (regs[i]?.getD (Reverse.auto 0)).index < ops.length := by
  cases hq : regs[i]? with
  | none =>
    rw [hq] at ht
    exact Option.noConfusion ht
  | some x =>
    simp only [hq, Option.getD_some] at ht ⊢
    exact hregs x (List.getElem?_mem hq) t ht

/-- Effect of unary_op on a tracked operand over a single-tape store. -/
theorem unary_op_tracked_zero (x : Reverse) (ev dv : ℚ → ℚ) (ops : List Op)
    (hx : x.tape = some ⟨0⟩) :
    Reverse.unary_op x ev dv [ops] =
      ([ops ++ [Op.unary x.index (dv x.value)]],
       ⟨ev x.value, some ⟨0⟩, ops.length⟩) := by
  rcases x with ⟨xv, xt, xi⟩
  simp only at hx
  subst hx
  simp [Reverse.unary_op, Tape.add_op]

/-- unary_op on an untracked operand records nothing. -/
theorem unary_op_untracked (x : Reverse) (ev dv : ℚ → ℚ) (s : Store)
    (hx : x.tape = none) :
    Reverse.unary_op x ev dv s = (s, ⟨ev x.value, none, 0⟩) := by
  rcases x with ⟨xv, xt, xi⟩
  simp only at hx
  subst hx
  simp [Reverse.unary_op]

/-- bin_op on two untracked operands records nothing. -/
theorem bin_op_untracked_untracked (x y : Reverse) (ev dl dr : ℚ → ℚ → ℚ)
    (s : Store) (hx : x.tape = none) (hy : y.tape = none) :
    Reverse.bin_op x y ev dl dr s = (s, ⟨ev x.value y.value, none, 0⟩) := by
  rcases x with ⟨xv, xt, xi⟩
  rcases y with ⟨yv, yt, yi⟩
  simp only at hx hy
  subst hx
  subst hy
  simp [Reverse.bin_op]

/-- bin_op with only the left operand tracked records a unary node. -/
theorem bin_op_tracked_untracked (x y : Reverse) (ev dl dr : ℚ → ℚ → ℚ)
    (ops : List Op) (hx : x.tape = some ⟨0⟩) (hy : y.tape = none) :
    Reverse.bin_op x y ev dl dr [ops] =
      ([ops ++ [Op.unary x.index (dl x.value y.value)]],
       ⟨ev x.value y.value, some ⟨0⟩, ops.length⟩) := by
  rcases x with ⟨xv, xt, xi⟩
  rcases y with ⟨yv, yt, yi⟩
  simp only at hx hy
  subst hx
  subst hy
  simp [Reverse.bin_op, Tape.add_op]

/-- bin_op with only the right operand tracked records a unary node. -/
theorem bin_op_untracked_tracked (x y : Reverse) (ev dl dr : ℚ → ℚ → ℚ)
    (ops : List Op) (hx : x.tape = none) (hy : y.tape = some ⟨0⟩) :
    Reverse.bin_op x y ev dl dr [ops] =
      ([ops ++ [Op.unary y.index (dr x.value y.value)]],
       ⟨ev x.value y.value, some ⟨0⟩, ops.length⟩) := by
  rcases x with ⟨xv, xt, xi⟩
  rcases y with ⟨yv, yt, yi⟩
  simp only at hx hy
  subst hx
  subst hy
  simp [Reverse.bin_op, Tape.add_op]

/-- bin_op with both operands tracked records a binary node on the left
operand's tape. -/
theorem bin_op_tracked_tracked (x y : Reverse) (ev dl dr : ℚ → ℚ → ℚ)
    (ops : List Op) (ty : Tape) (hx : x.tape = some ⟨0⟩) (hy : y.tape = some ty) :
    Reverse.bin_op x y ev dl dr [ops] =
      ([ops ++ [Op.bin x.index (dl x.value y.value) y.index (dr x.value y.value)]],
       ⟨ev x.value y.value, some ⟨0⟩, ops.length⟩) := by
  rcases x with ⟨xv, xt, xi⟩
  rcases y with ⟨yv, yt, yi⟩
  simp only at hx hy
  subst hx
  subst hy
  simp [Reverse.bin_op, Tape.add_op]

/-- Effect of registering a leaf on a single-tape store. -/
theorem reversible_zero (v : ℚ) (ops : List Op) :
    Reverse.reversible v ⟨0⟩ [ops] =
      ([ops ++ [⟨ops.length, ops.length, 0, 0⟩]], ⟨v, some ⟨0⟩, ops.length⟩) := by
  simp [Reverse.reversible, Tape.add_reset]

/-- Appending a value that satisfies the register conditions keeps the
register invariant over a tape that only grew. -/
theorem regs_append_wf (ops : List Op) (opsNew : List Op) (regs : List Reverse)
    (rNew : Reverse)
    (hlen : ops.length ≤ opsNew.length)
    (hregs : ∀ r ∈ regs, ∀ t, r.tape = some t → t = (⟨0⟩ : Tape) ∧ r.index < ops.length)
    (hnew : ∀ t, rNew.tape = some t → t = (⟨0⟩ : Tape) ∧ rNew.index < opsNew.length) :
    ∀ r ∈ regs ++ [rNew], ∀ t, r.tape = some t →
      t = (⟨0⟩ : Tape) ∧ r.index < opsNew.length := by
  intro r hr t ht
  rcases List.mem_append.mp hr with hr | hr
  · obtain ⟨h1, h2⟩ := hregs r hr t ht
    exact ⟨h1, by omega⟩
  · rw [List.mem_singleton] at hr
    subst hr
    exact hnew t ht

/-- Every instruction preserves the driver-state invariant. -/
theorem runInstr_preserves (s : Store) (regs : List Reverse) (ins : Instr)
    (h : StateWF (s, regs)) : StateWF (runInstr (s, regs) ins) := by
  obtain ⟨ops, hs, hwf, hregs⟩ := h
  simp only at hs hregs
  subst hs
  cases ins with
  | leaf v =>
    have heff := reversible_zero v ops
    refine ⟨ops ++ [⟨ops.length, ops.length, 0, 0⟩], ?_, ?_, ?_⟩
    · show (Reverse.reversible v ⟨0⟩ [ops]).1 = _
      rw [heff]
    · exact tapeWellFormed_append ops _ hwf (le_refl _) (le_refl _)
        (fun _ => ⟨rfl, rfl, rfl, rfl⟩)
    · show ∀ r ∈ regs ++ [(Reverse.reversible v ⟨0⟩ [ops]).2],
        ∀ t, r.tape = some t → t = (⟨0⟩ : Tape) ∧ r.index < _
      rw [heff]
      exact regs_append_wf ops _ regs _ (by simp) hregs
        (fun t ht => by
          injection ht with ht
          subst ht
          exact ⟨rfl, by simp⟩)
  | un i ev dv =>
    cases hx : (regs[i]?.getD (Reverse.auto 0)).tape with
    | none =>
      have heff := unary_op_untracked (regs[i]?.getD (Reverse.auto 0)) ev dv [ops] hx
      refine ⟨ops, ?_, hwf, ?_⟩
      · show (Reverse.unary_op (regs[i]?.getD (Reverse.auto 0)) ev dv [ops]).1 = [ops]
        rw [heff]
      · show ∀ r ∈ regs ++ [(Reverse.unary_op (regs[i]?.getD (Reverse.auto 0)) ev dv [ops]).2],
          ∀ t, r.tape = some t → t = (⟨0⟩ : Tape) ∧ r.index < ops.length
        rw [heff]
        exact regs_append_wf ops ops regs _ (le_refl _) hregs
          (fun t ht => Option.noConfusion ht)
    | some tx =>
      obtain ⟨rfl, hidx⟩ := reg_lookup_tracked ops regs hregs i tx hx
      have heff := unary_op_tracked_zero (regs[i]?.getD (Reverse.auto 0)) ev dv ops hx
      refine ⟨ops ++ [Op.unary (regs[i]?.getD (Reverse.auto 0)).index
          (dv (regs[i]?.getD (Reverse.auto 0)).value)], ?_, ?_, ?_⟩
      · show (Reverse.unary_op (regs[i]?.getD (Reverse.auto 0)) ev dv [ops]).1 = _
        rw [heff]
      · exact tapeWellFormed_append ops _ hwf (Nat.le_of_lt hidx) (Nat.le_of_lt hidx)
          (fun hc => by
            rcases hc with hc | hc <;> simp only [Op.unary] at hc <;> omega)
      · show ∀ r ∈ regs ++ [(Reverse.unary_op (regs[i]?.getD (Reverse.auto 0)) ev dv [ops]).2],
          ∀ t, r.tape = some t → t = (⟨0⟩ : Tape) ∧ r.index < _
        rw [heff]
        exact regs_append_wf ops _ regs _ (by simp) hregs
          (fun t ht => by
            injection ht with ht
            subst ht
            exact ⟨rfl, by simp⟩)
  | binop i j ev dl dr =>
    cases hx : (regs[i]?.getD (Reverse.auto 0)).tape with
    | none =>
      cases hy : (regs[j]?.getD (Reverse.auto 0)).tape with
      | none =>
        have heff := bin_op_untracked_untracked (regs[i]?.getD (Reverse.auto 0))
          (regs[j]?.getD (Reverse.auto 0)) ev dl dr [ops] hx hy
        refine ⟨ops, ?_, hwf, ?_⟩
        · show (Reverse.bin_op (regs[i]?.getD (Reverse.auto 0))
            (regs[j]?.getD (Reverse.auto 0)) ev dl dr [ops]).1 = [ops]
          rw [heff]
        · show ∀ r ∈ regs ++ [(Reverse.bin_op (regs[i]?.getD (Reverse.auto 0))
              (regs[j]?.getD (Reverse.auto 0)) ev dl dr [ops]).2],
            ∀ t, r.tape = some t → t = (⟨0⟩ : Tape) ∧ r.index < ops.length
          rw [heff]
          exact regs_append_wf ops ops regs _ (le_refl _) hregs
            (fun t ht => Option.noConfusion ht)
      | some ty =>
        obtain ⟨rfl, hidy⟩ := reg_lookup_tracked ops regs hregs j ty hy
        have heff := bin_op_untracked_tracked (regs[i]?.getD (Reverse.auto 0))
          (regs[j]?.getD (Reverse.auto 0)) ev dl dr ops hx hy
        refine ⟨ops ++ [Op.unary (regs[j]?.getD (Reverse.auto 0)).index
            (dr (regs[i]?.getD (Reverse.auto 0)).value
              (regs[j]?.getD (Reverse.auto 0)).value)], ?_, ?_, ?_⟩
        · show (Reverse.bin_op (regs[i]?.getD (Reverse.auto 0))
            (regs[j]?.getD (Reverse.auto 0)) ev dl dr [ops]).1 = _
          rw [heff]
        · exact tapeWellFormed_append ops _ hwf (Nat.le_of_lt hidy) (Nat.le_of_lt hidy)
            (fun hc => by
              rcases hc with hc | hc <;> simp only [Op.unary] at hc <;> omega)
        · show ∀ r ∈ regs ++ [(Reverse.bin_op (regs[i]?.getD (Reverse.auto 0))
              (regs[j]?.getD (Reverse.auto 0)) ev dl dr [ops]).2],
            ∀ t, r.tape = some t → t = (⟨0⟩ : Tape) ∧ r.index < _
          rw [heff]
          exact regs_append_wf ops _ regs _ (by simp) hregs
            (fun t ht => by
              injection ht with ht
              subst ht
              exact ⟨rfl, by simp⟩)
    | some tx =>
      obtain ⟨rfl, hidx⟩ := reg_lookup_tracked ops regs hregs i tx hx
      cases hy : (regs[j]?.getD (Reverse.auto 0)).tape with
      | none =>
        have heff := bin_op_tracked_untracked (regs[i]?.getD (Reverse.auto 0))
          (regs[j]?.getD (Reverse.auto 0)) ev dl dr ops hx hy
        refine ⟨ops ++ [Op.unary (regs[i]?.getD (Reverse.auto 0)).index
            (dl (regs[i]?.getD (Reverse.auto 0)).value
              (regs[j]?.getD (Reverse.auto 0)).value)], ?_, ?_, ?_⟩
        · show (Reverse.bin_op (regs[i]?.getD (Reverse.auto 0))
            (regs[j]?.getD (Reverse.auto 0)) ev dl dr [ops]).1 = _
          rw [heff]
        · exact tapeWellFormed_append ops _ hwf (Nat.le_of_lt hidx) (Nat.le_of_lt hidx)
            (fun hc => by
              rcases hc with hc | hc <;> simp only [Op.unary] at hc <;> omega)
        · show ∀ r ∈ regs ++ [(Reverse.bin_op (regs[i]?.getD (Reverse.auto 0))
              (regs[j]?.getD (Reverse.auto 0)) ev dl dr [ops]).2],
            ∀ t, r.tape = some t → t = (⟨0⟩ : Tape) ∧ r.index < _
          rw [heff]
          exact regs_append_wf ops _ regs _ (by simp) hregs
            (fun t ht => by
              injection ht with ht
              subst ht
              exact ⟨rfl, by simp⟩)
      | some ty =>
        obtain ⟨rfl, hidy⟩ := reg_lookup_tracked ops regs hregs j ty hy
        have heff := bin_op_tracked_tracked (regs[i]?.getD (Reverse.auto 0))
          (regs[j]?.getD (Reverse.auto 0)) ev dl dr ops ⟨0⟩ hx hy
        refine ⟨ops ++ [Op.bin (regs[i]?.getD (Reverse.auto 0)).index
            (dl (regs[i]?.getD (Reverse.auto 0)).value
              (regs[j]?.getD (Reverse.auto 0)).value)
            (regs[j]?.getD (Reverse.auto 0)).index
            (dr (regs[i]?.getD (Reverse.auto 0)).value
              (regs[j]?.getD (Reverse.auto 0)).value)], ?_, ?_, ?_⟩
        · show (Reverse.bin_op (regs[i]?.getD (Reverse.auto 0))
            (regs[j]?.getD (Reverse.auto 0)) ev dl dr [ops]).1 = _
          rw [heff]
        · exact tapeWellFormed_append ops _ hwf (Nat.le_of_lt hidx) (Nat.le_of_lt hidy)
            (fun hc => by
              rcases hc with hc | hc <;> simp only [Op.bin] at hc <;> omega)
        · show ∀ r ∈ regs ++ [(Reverse.bin_op (regs[i]?.getD (Reverse.auto 0))
              (regs[j]?.getD (Reverse.auto 0)) ev dl dr [ops]).2],
            ∀ t, r.tape = some t → t = (⟨0⟩ : Tape) ∧ r.index < _
          rw [heff]
          exact regs_append_wf ops _ regs _ (by simp) hregs
            (fun t ht => by
              injection ht with ht
              subst ht
              exact ⟨rfl, by simp⟩)

/-- Every driver program reaches a well-formed state from the fresh one. -/
theorem runProg_wf (prog : List Instr) : StateWF (runProg prog) := by
  have hgen : ∀ (st : Store × List Reverse), StateWF st →
      StateWF (prog.foldl runInstr st) := by
    induction prog with
    | nil => exact fun st h => h
    | cons ins prog ih =>
      intro st h
      obtain ⟨s, regs⟩ := st
      exact ih _ (runInstr_preserves s regs ins h)
  exact hgen ([[]], []) ⟨[], rfl, fun i op2 h => by simp at h, by simp⟩

/-- C7: on any tape built by registering leaves and applying unary and
binary operations among values tracked on that tape since the last reset,
every recorded node's left and right parent positions are at most the
node's own position, with equality only for (self-referential, zero-
seeded) leaf nodes. -/
theorem c7_parents_at_most_self (prog : List Instr) (i : Nat) (op2 : Op)
    (h : ((runProg prog).1.getD 0 [])[i]? = some op2) :
    op2.left ≤ i ∧ op2.right ≤ i ∧
    (op2.left = i ∨ op2.right = i →
      op2.left = i ∧ op2.right = i ∧ op2.dleft = 0 ∧ op2.dright = 0) := by
  obtain ⟨ops, hs, hwf, _⟩ := runProg_wf prog
  rw [hs, List.getD_cons_zero] at h
  exact hwf i op2 h

/-- C7 witness: the invariant read off the two-node tape of f(x) = x * x
at x = 3: node 1 has both parents 0 < 1; the hypothesis is discharged by
computing the tape. -/
theorem c7_parents_at_most_self_witness :
    (((runProg [Instr.leaf 3, Instr.binop 0 0 (fun a b => a * b)
        (fun _ b => b) (fun a _ => a)]).1.getD 0 [])[1]? =
      some (⟨0, 0, 3, 3⟩ : Op)) ∧
    ((⟨0, 0, 3, 3⟩ : Op).left ≤ 1 ∧ (⟨0, 0, 3, 3⟩ : Op).right ≤ 1 ∧
      ((⟨0, 0, 3, 3⟩ : Op).left = 1 ∨ (⟨0, 0, 3, 3⟩ : Op).right = 1 →
        (⟨0, 0, 3, 3⟩ : Op).left = 1 ∧ (⟨0, 0, 3, 3⟩ : Op).right = 1 ∧
        (⟨0, 0, 3, 3⟩ : Op).dleft = 0 ∧ (⟨0, 0, 3, 3⟩ : Op).dright = 0)) :=
  ⟨by norm_num [runProg, runInstr, List.foldl_cons, List.foldl_nil,
      Reverse.reversible, Reverse.bin_op, Tape.add_reset, Tape.add_op, Op.bin],
   c7_parents_at_most_self
     [Instr.leaf 3, Instr.binop 0 0 (fun a b => a * b) (fun _ b => b) (fun a _ => a)]
     1 ⟨0, 0, 3, 3⟩
     (by norm_num [runProg, runInstr, List.foldl_cons, List.foldl_nil,
       Reverse.reversible, Reverse.bin_op, Tape.add_reset, Tape.add_op, Op.bin])⟩

/-- An expression tree over registered leaves (referenced by their order
of registration, so the identical tree can be rebuilt after a reset). -/
inductive Expr where
  | leaf (k : Nat)
  | add (a b : Expr)
  | sub (a b : Expr)
  | mul (a b : Expr)
  | div (a b : Expr)
  | neg (a : Expr)

/-- Builds the expression on the tape with the given leaf values, exactly
as client code composing the arithmetic operators would. -/
def evalExpr (leaves : List Reverse) : Expr → Store → Store × Reverse
  | .leaf k, s => (s, leaves.getD k (Reverse.auto 0))
  | .add a b, s =>
    let ra := evalExpr leaves a s
    let rb := evalExpr leaves b ra.1
    Reverse.add ra.2 rb.2 rb.1
  | .sub a b, s =>
    let ra := evalExpr leaves a s
    let rb := evalExpr leaves b ra.1
    Reverse.sub ra.2 rb.2 rb.1
  | .mul a b, s =>
    let ra := evalExpr leaves a s
    let rb := evalExpr leaves b ra.1
    Reverse.mul ra.2 rb.2 rb.1
  | .div a b, s =>
    let ra := evalExpr leaves a s
    let rb := evalExpr leaves b ra.1
    Reverse.div ra.2 rb.2 rb.1
  | .neg a, s =>
    let ra := evalExpr leaves a s
    Reverse.neg ra.2 ra.1

/-- Registers one tracked leaf per primal, in order, on tape 0. -/
def registerAll : List ℚ → Store → Store × List Reverse
  | [], s => (s, [])
  | v :: vs, s =>
    let r := Reverse.reversible v ⟨0⟩ s
    let rest := registerAll vs r.1
    (rest.1, r.2 :: rest.2)

/-- Calls Reverse::reset on each retained tracked value, in order. -/
def resetAll : List Reverse → Store → Store × List Reverse
  | [], s => (s, [])
  | x :: xs, s =>
    let r := Reverse.reset x s
    let rest := resetAll xs r.1
    (rest.1, r.2 :: rest.2)

/-- First iteration: fresh tape, register the leaves, build the
expression; returns the store, the retained leaves and the output. -/
def firstPass (primals : List ℚ) (e : Expr) : Store × List Reverse × Reverse :=
  let reg := registerAll primals [[]]
  let r := evalExpr reg.2 e reg.1
  (r.1, reg.2, r.2)

/-- The derivative vector of the first pass. -/
def firstPassDerivs (primals : List ℚ) (e : Expr) : Option Derivatives :=
  Reverse.derivatives (firstPass primals e).2.2 (firstPass primals e).1

/-- Second iteration: tape.reset, then reset() on every retained leaf,
then rebuild the identical expression and take its derivative vector. -/
def secondPassDerivs (primals : List ℚ) (e : Expr) : Option Derivatives :=
  let s3 := Tape.reset ⟨0⟩ (firstPass primals e).1
  let rr := resetAll (firstPass primals e).2.1 s3
  let r2 := evalExpr rr.2 e rr.1
  Reverse.derivatives r2.2 r2.1

/-- unary_op never changes the number of tapes in the store. -/
theorem unary_op_store_length (r : Reverse) (ev dv : ℚ → ℚ) (s : Store) :
    ((Reverse.unary_op r ev dv s).1).length = s.length := by
  rcases r with ⟨v, t, i⟩
  cases t <;> simp [Reverse.unary_op, Tape.add_op]

/-- bin_op never changes the number of tapes in the store. -/
theorem bin_op_store_length (a b : Reverse) (ev dl dr : ℚ → ℚ → ℚ) (s : Store) :
    ((Reverse.bin_op a b ev dl dr s).1).length = s.length := by
  rcases a with ⟨av, ta, ia⟩
  rcases b with ⟨bv, tb, ib⟩
  cases ta <;> cases tb <;> simp [Reverse.bin_op, Tape.add_op]

/-- Building an expression never changes the number of tapes. -/
theorem evalExpr_store_length (ls : List Reverse) (e : Expr) (s : Store) :
    ((evalExpr ls e s).1).length = s.length := by
  induction e generalizing s with
  | leaf k => rfl
  | add a b iha ihb =>
    show ((Reverse.add _ _ _).1).length = s.length
    rw [Reverse.add, bin_op_store_length, ihb, iha]
  | sub a b iha ihb =>
    show ((Reverse.sub _ _ _).1).length = s.length
    rw [Reverse.sub, bin_op_store_length, ihb, iha]
  | mul a b iha ihb =>
    show ((Reverse.mul _ _ _).1).length = s.length
    rw [Reverse.mul, bin_op_store_length, ihb, iha]
  | div a b iha ihb =>
    show ((Reverse.div _ _ _).1).length = s.length
    rw [Reverse.div, bin_op_store_length, ihb, iha]
  | neg a iha =>
    show ((Reverse.neg _ _).1).length = s.length
    rw [Reverse.neg, unary_op_store_length, iha]

/-- Registering leaves never changes the number of tapes. -/
theorem registerAll_store_length (vs : List ℚ) (s : Store) :
    ((registerAll vs s).1).length = s.length := by
  induction vs generalizing s with
  | nil => rfl
  | cons v vs ih =>
    show ((registerAll vs (Reverse.reversible v ⟨0⟩ s).1).1).length = s.length
    rw [ih]
    simp [Reverse.reversible, Tape.add_reset]

/-- Registered leaves carry the given primals, in order, all on tape 0. -/
theorem registerAll_leaves (vs : List ℚ) (s : Store) :
    ((registerAll vs s).2).map Reverse.value = vs ∧
    ∀ r ∈ (registerAll vs s).2, r.tape = some (⟨0⟩ : Tape) := by
  induction vs generalizing s with
  | nil => simp [registerAll]
  | cons v vs ih =>
    obtain ⟨h1, h2⟩ := ih (Reverse.reversible v ⟨0⟩ s).1
    constructor
    · show (Reverse.reversible v ⟨0⟩ s).2.value ::
        ((registerAll vs (Reverse.reversible v ⟨0⟩ s).1).2).map Reverse.value = v :: vs
      rw [h1]
      rfl
    · intro r hr
      rcases List.mem_cons.mp hr with rfl | hr
      · rfl
      · exact h2 r hr

/-- Resetting retained tracked values is the same operation as registering
their primals afresh. -/
theorem resetAll_eq_registerAll (ls : List Reverse) (s : Store)
    (h : ∀ r ∈ ls, r.tape = some (⟨0⟩ : Tape)) :
    resetAll ls s = registerAll (ls.map Reverse.value) s := by
  induction ls generalizing s with
  | nil => rfl
  | cons x xs ih =>
    have hx : x.tape = some ⟨0⟩ := h x (List.mem_cons_self x xs)
    have hxs : ∀ r ∈ xs, r.tape = some (⟨0⟩ : Tape) :=
      fun r hr => h r (List.mem_cons_of_mem x hr)
    rcases x with ⟨xv, xt, xi⟩
    simp only at hx
    subst hx
    show ((resetAll xs (Reverse.reset ⟨xv, some ⟨0⟩, xi⟩ s).1).1,
      (Reverse.reset ⟨xv, some ⟨0⟩, xi⟩ s).2 ::
        (resetAll xs (Reverse.reset ⟨xv, some ⟨0⟩, xi⟩ s).1).2) = _
    rw [ih _ hxs]
    rfl

/-- C6: after tape.reset() and reset() on each retained tracked value,
rebuilding the identical expression on the same primal values yields a
derivative vector identical to the one computed before the reset. -/
theorem c6_round_trip (primals : List ℚ) (e : Expr) :
    secondPassDerivs primals e = firstPassDerivs primals e := by
  have hlen : (firstPass primals e).1.length = 1 := by
    show ((evalExpr (registerAll primals [[]]).2 e (registerAll primals [[]]).1).1).length = 1
    rw [evalExpr_store_length, registerAll_store_length]
    rfl
  obtain ⟨x, hx⟩ := List.length_eq_one.mp hlen
  have hreset : Tape.reset ⟨0⟩ (firstPass primals e).1 = [[]] := by
    rw [hx]
    rfl
  have hleaves := registerAll_leaves primals [[]]
  have htapes : ∀ r ∈ (firstPass primals e).2.1, r.tape = some (⟨0⟩ : Tape) := by
    intro r hr
    exact hleaves.2 r hr
  have hmap : ((firstPass primals e).2.1).map Reverse.value = primals := hleaves.1
  show Reverse.derivatives
      (evalExpr (resetAll (firstPass primals e).2.1
        (Tape.reset ⟨0⟩ (firstPass primals e).1)).2 e
        (resetAll (firstPass primals e).2.1
          (Tape.reset ⟨0⟩ (firstPass primals e).1)).1).2
      (evalExpr (resetAll (firstPass primals e).2.1
        (Tape.reset ⟨0⟩ (firstPass primals e).1)).2 e
        (resetAll (firstPass primals e).2.1
          (Tape.reset ⟨0⟩ (firstPass primals e).1)).1).1 = _
  rw [hreset, resetAll_eq_registerAll _ _ htapes, hmap]
  rfl
